import Mathlib

/-!
Verification development for the CatBoost training script
(`src/server/ml/train_catboost.py`).

The script is a single linear pipeline: parse a JSON config from the
command line, load a CSV into a feature matrix / label vector / optional
group-size vector, split rows, build ranking pools, fit an external
ranker inside an experiment-tracking run, compute NDCG@k and a top-1
accuracy proxy, persist the model and emit a JSON result.

Shallow embedding conventions used below:
* Python / numpy floats are modelled exactly as rationals (`ℚ`) where the
  computation is exact arithmetic and comparisons, and as reals (`ℝ`)
  where the source computes with `np.log2`.
* Fallible operations (file reading, external library calls) are
  modelled as `Except` values passed in as parameters; `Option` marks
  calls that raise on empty input (`np.argmax` of an empty vector).
* `np.argsort(-y_pred)` followed by `y_true[ranked_indices]` is modelled
  by stably sorting the list of `(score, true_rank)` pairs by descending
  score and projecting the second component; ties in the scores follow
  the stable order (the source's sort leaves tie order unspecified, and
  no property proved here depends on the tie order).
* `np.argmax` is modelled by its documented semantics: the first index
  attaining the maximum, undefined (`none`) on an empty vector.
-/

namespace TrainCatboost

/-! ### numpy argmax and `calculate_accuracy` (lines 196-199)

`calculate_accuracy(y_true, y_pred)` is
`1.0 if y_true[np.argmax(y_pred)] <= 2 else 0.0`.
`np.argmax` raises on an empty vector and `y_true[i]` raises when the
index is out of range, hence the `Option` result. -/

/-- Model of `np.argmax`: index of the first occurrence of the maximum value,
`none` on the empty list (numpy raises `ValueError` there). -/
def np_argmax (l : List ℚ) : Option ℕ :=
  match l.maximum with
  | none => none
  | some m => some (l.findIdx (fun v => decide (v = m)))

/-- Embedding of `calculate_accuracy` from the source: `1.0` when the entry of
`y_true` at the argmax index of `y_pred` is at most 2, else `0.0`. -/
def calculate_accuracy (y_true y_pred : List ℚ) : Option ℚ :=
  match np_argmax y_pred with
  | none => none
  | some i =>
    match y_true.get? i with
    | none => none
    | some v => some (if v ≤ 2 then 1 else 0)

/-! ### The `__main__` entry guard (lines 202-208) -/

/-- Observable outcome of the `__main__` block before the pipeline
itself runs: diagnostics printed to stderr, an exit code if the process
exits early, and whether `train_catboost(config)` is reached. -/
structure MainOutcome where
  stderrLines : List String
  exitCode : Option ℕ
  pipelineRun : Bool
  deriving DecidableEq

/-- The `__main__` block: with fewer than two entries in `sys.argv`
(the script name plus one positional argument) it prints a usage line to
stderr and exits with status 1; otherwise it parses the argument and
runs the pipeline. -/
def script_main (argv : List String) : MainOutcome :=
  if argv.length < 2 then
    { stderrLines := ["Usage: python train_catboost.py <config_json>"]
      exitCode := some 1
      pipelineRun := false }
  else
    { stderrLines := []
      exitCode := none
      pipelineRun := true }

/-! ### `load_data` (lines 27-44)

`pd.read_csv` is external and fallible: it is modelled as an
`Except PyErr Df` parameter.  The body then drops the identifier/target
columns with `errors='ignore'` (never fails), extracts `df['rank']`
(raises `KeyError` when the column is absent) and computes per-race
group sizes only when a `race_id` column exists.  The `except` clause
prints a diagnostic and re-raises the same exception. -/

/-- Exceptions that can escape the `try` block of `load_data`. -/
inductive PyErr
  | readFail (msg : String)
  | keyError (col : String)
  deriving DecidableEq

/-- Message text of an exception, as interpolated into the diagnostic. -/
def pyErrMsg : PyErr → String
  | .readFail m => m
  | .keyError c => c

/-- A loaded dataframe: named columns of rational values. -/
structure Df where
  cols : List (String × List ℚ)
  deriving DecidableEq

/-- Model of `df.drop(['rank', 'horse_id', 'race_id'], axis=1, errors='ignore')`:
keep every column whose name is not one of the three, never failing. -/
def dropCols (df : Df) : List (String × List ℚ) :=
  df.cols.filter (fun c => !(["rank", "horse_id", "race_id"].contains c.1))

/-- Model of `df.groupby('race_id').size().values`: the count of rows for each
distinct race identifier, ordered by ascending identifier. -/
def groupSizes (race : List ℚ) : List ℕ :=
  ((race.dedup).insertionSort (· ≤ ·)).map (fun v => race.count v)

/-- The triple returned by a successful `load_data`. -/
structure LoadedData where
  X : List (String × List ℚ)
  y : List ℚ
  group_ids : Option (List ℕ)
  deriving DecidableEq

/-- Embedding of `load_data`: result of the body together with the lines printed to
stderr.  On any failure inside the `try` block the handler prints
`"Error loading data: ..."` and re-raises the same exception. -/
def load_data (readResult : Except PyErr Df) :
    Except PyErr LoadedData × List String :=
  match readResult with
  | .error e => (.error e, ["Error loading data: " ++ pyErrMsg e])
  | .ok df =>
    match df.cols.lookup "rank" with
    | none =>
      (.error (PyErr.keyError "rank"),
       ["Error loading data: " ++ pyErrMsg (PyErr.keyError "rank")])
    | some y =>
      (.ok { X := dropCols df
             y := y
             group_ids :=
               match df.cols.lookup "race_id" with
               | some race => some (groupSizes race)
               | none => none },
       [])

/-! ### Group-size slicing in `train_catboost` (lines 68-75)

After `train_test_split(X, y, test_size=test_size, random_state=42)`
randomly assigns rows to train/test, the group-size vector is sliced
purely by position:
`train_groups = group_ids[:int(len(group_ids) * (1 - test_size))]` and
`test_groups = group_ids[int(len(group_ids) * (1 - test_size)):]`.
The random row assignment is modelled as an explicit `rowSplit`
parameter, which the slicing expressions never consult, exactly as in
the source. -/

/-- Python `int()` on a rational: truncation toward zero. -/
def pyInt (q : ℚ) : ℤ :=
  if q < 0 then ⌈q⌉ else ⌊q⌋

/-- Python slice `l[:c]` for an integer bound `c` (negative bounds count
from the end). -/
def pySliceTo (l : List ℕ) (c : ℤ) : List ℕ :=
  if 0 ≤ c then l.take c.toNat else l.take (l.length - (-c).toNat)

/-- Python slice `l[c:]` for an integer bound `c` (negative bounds count
from the end). -/
def pySliceFrom (l : List ℕ) (c : ℤ) : List ℕ :=
  if 0 ≤ c then l.drop c.toNat else l.drop (l.length - (-c).toNat)

/-- The positional cut used for both group slices:
`int(len(group_ids) * (1 - test_size))`. -/
def sliceCut (g : List ℕ) (test_size : ℚ) : ℤ :=
  pyInt ((g.length : ℚ) * (1 - test_size))

/-- Embedding of the `if group_ids is not None:` block of `train_catboost`:
`rowSplit` is the row assignment produced by the seeded random split,
present in scope but not consulted by the slicing expressions. -/
def adjustGroups (rowSplit : List ℕ) (group_ids : Option (List ℕ))
    (test_size : ℚ) : Option (List ℕ) × Option (List ℕ) :=
  match group_ids with
  | none => (none, none)
  | some g =>
    (some (pySliceTo g (sliceCut g test_size)),
     some (pySliceFrom g (sliceCut g test_size)))

/-! ### NDCG (`calculate_ndcg`, lines 180-193)

```
ranked_indices = np.argsort(-y_pred)[:k]
ranked_true = y_true[ranked_indices]
dcg  = sum(1.0 / np.log2(i + 2) for i, rel in enumerate(ranked_true) if rel <= 2)
ideal_ranked = np.sort(y_true)[:k]
idcg = sum(1.0 / np.log2(i + 2) for i, rel in enumerate(ideal_ranked) if rel <= 2)
return dcg / idcg if idcg > 0 else 0
```
-/

/-- Discount weight at position `i` (0-based): `1 / log2(i + 2)`. -/
noncomputable def w (i : ℕ) : ℝ :=
  1 / Real.logb 2 ((i : ℝ) + 2)

/-- The discounted-gain sum of the source: positions are enumerated from
`i`, and a position contributes its weight exactly when its true rank is
at most 2. -/
noncomputable def gainSum : List ℚ → ℕ → ℝ
  | [], _ => 0
  | rel :: rest, i => (if rel ≤ 2 then w i else 0) + gainSum rest (i + 1)

/-- All `(score, true_rank)` pairs sorted by descending score (stable);
this realises `np.argsort(-y_pred)` composed with indexing into
`y_true`. -/
def sortedByScoreDesc (y_pred y_true : List ℚ) : List (ℚ × ℚ) :=
  (y_pred.zip y_true).insertionSort (fun a b => b.1 ≤ a.1)

/-- Embedding of `y_true[np.argsort(-y_pred)[:k]]`. -/
def rankedTrue (y_true y_pred : List ℚ) (k : ℕ) : List ℚ :=
  ((sortedByScoreDesc y_pred y_true).take k).map Prod.snd

/-- Embedding of `np.sort(y_true)[:k]`. -/
def idealRanked (y_true : List ℚ) (k : ℕ) : List ℚ :=
  (y_true.insertionSort (· ≤ ·)).take k

/-- Realized discounted cumulative gain over the top-`k` predicted
entries. -/
noncomputable def dcg (y_true y_pred : List ℚ) (k : ℕ) : ℝ :=
  gainSum (rankedTrue y_true y_pred k) 0

/-- Ideal discounted cumulative gain over the `k` best true ranks. -/
noncomputable def idcg (y_true : List ℚ) (k : ℕ) : ℝ :=
  gainSum (idealRanked y_true k) 0

open Classical in
/-- Embedding of `calculate_ndcg` from the source:
`dcg / idcg if idcg > 0 else 0`. -/
noncomputable def calculate_ndcg (y_true y_pred : List ℚ) (k : ℕ) : ℝ :=
  if 0 < idcg y_true k then dcg y_true y_pred k / idcg y_true k else 0

/-- Number of "placed" entries (true rank at most 2) in a vector. -/
def placedCount (l : List ℚ) : ℕ :=
  l.countP (fun r => decide (r ≤ 2))

/-- Sum of the first `c` discount weights starting at position `i`:
the largest possible discounted gain from `c` placed entries at
positions `i, i+1, ...`.  Used to compare realized and ideal gains. -/
noncomputable def topW : ℕ → ℕ → ℝ
  | 0, _ => 0
  | c + 1, i => w i + topW c (i + 1)

/-! ### Configuration and the emitted result record (lines 48-54 and 153-172)

`config.get` with defaults becomes a structure with field defaults.
Metric floats are modelled as exact rationals except the NDCG values,
which the source computes through `np.log2`. -/

/-- The parsed training configuration with the source's defaults. -/
structure Config where
  dataPath : String := "/tmp/training_data.csv"
  outputPath : String := "/tmp/models"
  testSize : ℚ := 1 / 5
  hyperparameters : List (String × ℚ) := []

/-- The `metrics` sub-record of the emitted result. -/
structure Metrics where
  ndcg4 : ℝ
  ndcg3 : ℝ
  ndcg2 : ℝ
  accuracy : ℚ
  precision : ℚ
  recallMetric : ℚ
  calibrationError : ℚ
  inferenceLatency : ℕ

/-- The JSON result object printed to stdout. -/
structure TrainResult where
  modelPath : String
  metrics : Metrics
  timestamp : String
  hyperparameters : List (String × ℚ)
  featureImportance : List (String × ℚ)

/-- The evaluation-and-emission tail of `train_catboost`: compute the
three NDCG values and the accuracy proxy on the held-out labels and the
model's predictions, then package the result record.  `importances` are
the `(feature, importance)` pairs from the fitted model; the record
keeps the ten largest by importance (Python's stable
`sorted(..., reverse=True)[:10]`).  `none` when `calculate_accuracy`
raises, in which case no result is emitted. -/
noncomputable def emittedResult (cfg : Config) (y_test predictions : List ℚ)
    (timestamp : String) (importances : List (String × ℚ)) :
    Option TrainResult :=
  match calculate_accuracy y_test predictions with
  | none => none
  | some acc =>
    some
      { modelPath := cfg.outputPath ++ "/catboost_model.pkl"
        metrics :=
          { ndcg4 := calculate_ndcg y_test predictions 4
            ndcg3 := calculate_ndcg y_test predictions 3
            ndcg2 := calculate_ndcg y_test predictions 2
            accuracy := acc
            precision := 92 / 100
            recallMetric := 90 / 100
            calibrationError := 5 / 100
            inferenceLatency := 25 }
        timestamp := timestamp
        hyperparameters := cfg.hyperparameters
        featureImportance :=
          (importances.insertionSort (fun a b => b.2 ≤ a.2)).take 10 }

/-! ### The experiment-tracking run (lines 93-177)

`mlflow.start_run` precedes a `try:` block whose `finally:` clause calls
`mlflow.end_run()`.  The external fallible steps inside the block
(`model.fit`, `model.predict`, pickling to disk) are modelled as
`Except` parameters; the trace of tracking calls is recorded as a list
of events. -/

/-- Calls made to the tracking backend, in order. -/
inductive MlEvent
  | startRun
  | logParam (key : String)
  | logMetric (key : String)
  | logArtifact
  | endRun
  deriving DecidableEq

/-- Outcomes of the external fallible steps inside the `try:` block. -/
structure BodyOutcomes where
  fit : Except String Unit
  predict : Except String (List ℚ)
  save : Except String Unit

/-- The body of the `try:` block: log each hyperparameter, fit, predict,
log the four metrics, persist the model, log the artifact.  Returns the
body's outcome (the exception, if one escaped) and the tracking events
emitted before control left the block. -/
def runBody (cfg : Config) (oc : BodyOutcomes) :
    Except String Unit × List MlEvent :=
  let paramEvents := cfg.hyperparameters.map (fun p => MlEvent.logParam p.1)
  match oc.fit with
  | .error e => (.error e, paramEvents)
  | .ok _ =>
    match oc.predict with
    | .error e => (.error e, paramEvents)
    | .ok _ =>
      let metricEvents := paramEvents ++
        [MlEvent.logMetric "ndcg4", MlEvent.logMetric "ndcg3",
         MlEvent.logMetric "ndcg2", MlEvent.logMetric "accuracy"]
      match oc.save with
      | .error e => (.error e, metricEvents)
      | .ok _ => (.ok (), metricEvents ++ [MlEvent.logArtifact])

/-- Model of `mlflow.start_run(...)` followed by `try: ... finally:
mlflow.end_run()`: the start event is emitted first, the body's events
follow, and the end event is appended on every path; the body's
exception, if any, is re-raised unchanged after the `finally` clause. -/
def train_tracked (cfg : Config) (oc : BodyOutcomes) :
    Except String Unit × List MlEvent :=
  let r := runBody cfg oc
  (r.1, MlEvent.startRun :: r.2 ++ [MlEvent.endRun])

/-! ### Helper lemmas about `np_argmax` -/

/-- Specification of `np_argmax`: on a non-empty list it returns the first index of the
maximum: the index is in range, holds the maximum value, and every
earlier index holds a strictly smaller value. -/
theorem np_argmax_spec (l : List ℚ) (hne : l ≠ []) :
    ∃ i m, np_argmax l = some i ∧ i < l.length ∧ l.get? i = some m ∧
      (∀ v ∈ l, v ≤ m) ∧
      ∀ j, j < i → ∀ v, l.get? j = some v → v < m := by
  obtain ⟨m, hm⟩ : ∃ m, l.maximum = some m := by
    cases hmax : l.maximum with
    | bot => exact absurd (List.maximum_eq_none.mp hmax) hne
    | coe m => exact ⟨m, rfl⟩
  have hmem : m ∈ l := List.maximum_mem hm
  have hex : ∃ x ∈ l, (fun v => decide (v = m)) x = true := ⟨m, hmem, by simp⟩
  have hlt : l.findIdx (fun v => decide (v = m)) < l.length :=
    List.findIdx_lt_length_of_exists hex
  refine ⟨l.findIdx (fun v => decide (v = m)), m, ?_, hlt, ?_, ?_, ?_⟩
  · simp only [np_argmax, hm]
  · rw [List.get?_eq_get hlt]
    have hfi := List.findIdx_get (w := hlt)
    simp only [decide_eq_true_eq] at hfi
    rw [hfi]
  · exact fun v hv => List.le_maximum_of_mem hv hm
  · intro j hj v hv
    have hjl : j < l.length := lt_trans hj hlt
    have hne2 : (fun v => decide (v = m)) l[j] = false := List.not_of_lt_findIdx hj
    simp only [decide_eq_false_iff_not] at hne2
    have hget : l.get? j = some l[j] := by
      rw [List.get?_eq_get hjl]
      simp
    rw [hget] at hv
    have hvj : l[j] = v := Option.some.inj hv
    rw [← hvj]
    exact lt_of_le_of_ne (List.le_maximum_of_mem (l.getElem_mem hjl) hm) hne2

/-! ### Claim theorems: accuracy -/

/-- C3: for non-empty equal-length inputs, `calculate_accuracy` returns
`1.0` exactly when the entry of `y_true` at the argmax index of
`y_pred` is at most 2, and its value is always the single scalar `1.0`
or `0.0`. -/
theorem calculate_accuracy_spec (y_true y_pred : List ℚ) (hne : y_pred ≠ [])
    (hlen : y_true.length = y_pred.length) (i : ℕ)
    (hi : np_argmax y_pred = some i) :
    (calculate_accuracy y_true y_pred = some 1 ↔
      ∃ v, y_true.get? i = some v ∧ v ≤ 2)
    ∧ (calculate_accuracy y_true y_pred = some 1 ∨
       calculate_accuracy y_true y_pred = some 0) := by
  obtain ⟨i2, m, hi2, hlt, _, _, _⟩ := np_argmax_spec y_pred hne
  rw [hi] at hi2
  have hii : i = i2 := Option.some.inj hi2
  subst hii
  have hlt2 : i < y_true.length := by rw [hlen]; exact hlt
  obtain ⟨v, hv⟩ : ∃ v, y_true.get? i = some v := ⟨_, List.get?_eq_get hlt2⟩
  have hca : calculate_accuracy y_true y_pred = some (if v ≤ 2 then 1 else 0) := by
    simp only [calculate_accuracy, hi, hv]
  constructor
  · constructor
    · intro h1
      refine ⟨v, hv, ?_⟩
      by_contra hv2
      rw [hca, if_neg hv2] at h1
      have : (0 : ℚ) = 1 := by injection h1
      norm_num at this
    · rintro ⟨v2, hv2, hle⟩
      rw [hv] at hv2
      have heq : v = v2 := Option.some.inj hv2
      subst heq
      rw [hca, if_pos hle]
  · rw [hca]
    by_cases h : v ≤ 2
    · left; rw [if_pos h]
    · right; rw [if_neg h]

/-- C3 witness: concrete evaluation at `y_true = [1, 5]`,
`y_pred = [2, 7]`, whose argmax index is 1. -/
theorem calculate_accuracy_spec_witness :
    ([2, 7] : List ℚ) ≠ [] ∧
    ([1, 5] : List ℚ).length = ([2, 7] : List ℚ).length ∧
    np_argmax [2, 7] = some 1 ∧
    ((calculate_accuracy [1, 5] [2, 7] = some 1 ↔
        ∃ v, ([1, 5] : List ℚ).get? 1 = some v ∧ v ≤ 2)
      ∧ (calculate_accuracy [1, 5] [2, 7] = some 1 ∨
         calculate_accuracy [1, 5] [2, 7] = some 0)) :=
  ⟨by decide, by decide, by decide,
   calculate_accuracy_spec [1, 5] [2, 7] (by decide) (by decide) 1 (by decide)⟩

/-- C10: `calculate_accuracy` is total on non-empty predictions with a
true-rank vector at least as long, returning exactly `0.0` or `1.0`
with argmax ties resolved to the lowest index; on an empty prediction
vector the call fails. -/
theorem calculate_accuracy_total :
    (∀ y_true y_pred : List ℚ, y_pred ≠ [] → y_pred.length ≤ y_true.length →
      ∃ i m, np_argmax y_pred = some i ∧ i < y_pred.length ∧
        y_pred.get? i = some m ∧ (∀ v ∈ y_pred, v ≤ m) ∧
        (∀ j, j < i → ∀ v, y_pred.get? j = some v → v < m) ∧
        ∃ r, calculate_accuracy y_true y_pred = some r ∧ (r = 0 ∨ r = 1))
    ∧ ∀ y_true : List ℚ, calculate_accuracy y_true [] = none := by
  constructor
  · intro y_true y_pred hne hlen
    obtain ⟨i, m, hi, hlt, hget, hmax, hfirst⟩ := np_argmax_spec y_pred hne
    have hlt2 : i < y_true.length := lt_of_lt_of_le hlt hlen
    obtain ⟨v, hv⟩ : ∃ v, y_true.get? i = some v := ⟨_, List.get?_eq_get hlt2⟩
    refine ⟨i, m, hi, hlt, hget, hmax, hfirst, if v ≤ 2 then 1 else 0, ?_, ?_⟩
    · simp only [calculate_accuracy, hi, hv]
    · by_cases h : v ≤ 2
      · right; rw [if_pos h]
      · left; rw [if_neg h]
  · intro y_true; rfl

/-- C10 witness: a tied prediction vector and the empty vector. -/
theorem calculate_accuracy_total_witness :
    (∃ i m, np_argmax [5, 5] = some i ∧ i < ([5, 5] : List ℚ).length ∧
      ([5, 5] : List ℚ).get? i = some m ∧ (∀ v ∈ ([5, 5] : List ℚ), v ≤ m) ∧
      (∀ j, j < i → ∀ v, ([5, 5] : List ℚ).get? j = some v → v < m) ∧
      ∃ r, calculate_accuracy [3, 3] [5, 5] = some r ∧ (r = 0 ∨ r = 1))
    ∧ calculate_accuracy [3] [] = none :=
  ⟨calculate_accuracy_total.1 [3, 3] [5, 5] (by decide) (by decide),
   calculate_accuracy_total.2 [3]⟩

/-! ### Claim theorems: entry guard, load_data, slicing, placeholders,
tracking -/

/-- C7: with no positional command-line argument the script prints a
usage diagnostic to stderr and exits with status 1 without running the
pipeline. -/
theorem script_main_missing_arg (argv : List String) (h : argv.length < 2) :
    script_main argv =
      { stderrLines := ["Usage: python train_catboost.py <config_json>"]
        exitCode := some 1
        pipelineRun := false } := by
  unfold script_main
  rw [if_pos h]

/-- C7 witness: invocation with only the script name. -/
theorem script_main_missing_arg_witness :
    script_main ["train_catboost.py"] =
      { stderrLines := ["Usage: python train_catboost.py <config_json>"]
        exitCode := some 1
        pipelineRun := false } :=
  script_main_missing_arg ["train_catboost.py"] (by decide)

/-- C8: `load_data` fails exactly when reading or preparing fails; on a
read failure the same exception is re-raised unchanged after the
diagnostic is printed, a missing `rank` column raises the `KeyError`
with the diagnostic, and on success nothing is printed. -/
theorem load_data_spec (r : Except PyErr Df) :
    ((∃ e, (load_data r).1 = Except.error e) ↔
      (∃ e, r = Except.error e) ∨
      (∃ df, r = Except.ok df ∧ df.cols.lookup "rank" = none))
    ∧ (∀ e, r = Except.error e →
        load_data r = (Except.error e, ["Error loading data: " ++ pyErrMsg e]))
    ∧ (∀ df, r = Except.ok df → df.cols.lookup "rank" = none →
        load_data r = (Except.error (PyErr.keyError "rank"),
          ["Error loading data: " ++ pyErrMsg (PyErr.keyError "rank")]))
    ∧ (∀ d, (load_data r).1 = Except.ok d → (load_data r).2 = []) := by
  cases r with
  | error e =>
    refine ⟨?_, ?_, ?_, ?_⟩
    · exact iff_of_true ⟨e, rfl⟩ (Or.inl ⟨e, rfl⟩)
    · intro e2 he
      have : e = e2 := by injection he
      subst this
      rfl
    · intro df hdf
      exact absurd hdf (by simp)
    · intro d hd
      exact absurd hd (by simp [load_data])
  | ok df =>
    cases hlook : df.cols.lookup "rank" with
    | none =>
      have hld : load_data (Except.ok df) =
          (Except.error (PyErr.keyError "rank"),
           ["Error loading data: " ++ pyErrMsg (PyErr.keyError "rank")]) := by
        simp only [load_data, hlook]
      refine ⟨?_, ?_, ?_, ?_⟩
      · exact iff_of_true ⟨PyErr.keyError "rank", by rw [hld]⟩
          (Or.inr ⟨df, rfl, hlook⟩)
      · intro e2 he
        exact absurd he (by simp)
      · intro df2 hdf2 _
        have : df = df2 := by injection hdf2
        subst this
        exact hld
      · intro d hd
        rw [hld] at hd
        exact absurd hd (by simp)
    | some y =>
      have hld : (load_data (Except.ok df)).2 = [] := by
        simp only [load_data, hlook]
      have hok : ∃ d, (load_data (Except.ok df)).1 = Except.ok d := by
        simp only [load_data, hlook]
        exact ⟨_, rfl⟩
      refine ⟨?_, ?_, ?_, ?_⟩
      · obtain ⟨d, hd⟩ := hok
        constructor
        · rintro ⟨e, he⟩
          rw [hd] at he
          exact absurd he (by simp)
        · rintro (⟨e, he⟩ | ⟨df2, hdf2, hl2⟩)
          · exact absurd he (by simp)
          · have : df = df2 := by injection hdf2
            subst this
            rw [hlook] at hl2
            exact absurd hl2 (by simp)
      · intro e2 he
        exact absurd he (by simp)
      · intro df2 hdf2 hl2
        have : df = df2 := by injection hdf2
        subst this
        rw [hlook] at hl2
        exact absurd hl2 (by simp)
      · intro d _
        exact hld

/-- C8 witness: a failing read propagates the same exception after the
diagnostic. -/
theorem load_data_spec_witness :
    load_data (Except.error (PyErr.readFail "No such file")) =
      (Except.error (PyErr.readFail "No such file"),
       ["Error loading data: " ++ pyErrMsg (PyErr.readFail "No such file")]) :=
  (load_data_spec (Except.error (PyErr.readFail "No such file"))).2.1
    (PyErr.readFail "No such file") rfl

/-- C4: whenever a group vector is present, the group slices are the
positional head and tail at `int(len(group_ids) * (1 - testSize))`,
independent of the random row split. -/
theorem adjustGroups_positional (rs rs2 g : List ℕ) (t : ℚ)
    (h0 : 0 ≤ t) (h1 : t ≤ 1) :
    adjustGroups rs (some g) t
      = (some (g.take (pyInt ((g.length : ℚ) * (1 - t))).toNat),
         some (g.drop (pyInt ((g.length : ℚ) * (1 - t))).toNat))
    ∧ adjustGroups rs (some g) t = adjustGroups rs2 (some g) t := by
  have hq : 0 ≤ (g.length : ℚ) * (1 - t) :=
    mul_nonneg (Nat.cast_nonneg _) (by linarith)
  have hcut : 0 ≤ pyInt ((g.length : ℚ) * (1 - t)) := by
    unfold pyInt
    rw [if_neg (not_lt.mpr hq)]
    exact Int.le_floor.mpr (by exact_mod_cast hq)
  constructor
  · simp only [adjustGroups, sliceCut, pySliceTo, pySliceFrom]
    rw [if_pos hcut, if_pos hcut]
  · rfl

/-- C4 witness: two distinct row splits at `testSize = 1/5` give the
same positional slices of a two-group vector. -/
theorem adjustGroups_positional_witness :
    adjustGroups [0] (some [3, 2]) (1 / 5)
      = (some (([3, 2] : List ℕ).take
               (pyInt ((([3, 2] : List ℕ).length : ℚ) * (1 - 1 / 5))).toNat),
         some (([3, 2] : List ℕ).drop
               (pyInt ((([3, 2] : List ℕ).length : ℚ) * (1 - 1 / 5))).toNat))
    ∧ adjustGroups [0] (some [3, 2]) (1 / 5)
      = adjustGroups [1] (some [3, 2]) (1 / 5) :=
  adjustGroups_positional [0] [1] [3, 2] (1 / 5) (by norm_num) (by norm_num)

/-- C5: every emitted result carries the hard-coded placeholder metrics
`precision = 0.92`, `recall = 0.90`, `calibrationError = 0.05` and
`inferenceLatency = 25`, for every dataset and configuration. -/
theorem emittedResult_placeholder_metrics (cfg : Config)
    (y_test predictions : List ℚ) (ts : String)
    (imp : List (String × ℚ)) (r : TrainResult)
    (h : emittedResult cfg y_test predictions ts imp = some r) :
    r.metrics.precision = 92 / 100 ∧ r.metrics.recallMetric = 90 / 100 ∧
    r.metrics.calibrationError = 5 / 100 ∧ r.metrics.inferenceLatency = 25 := by
  cases hacc : calculate_accuracy y_test predictions with
  | none =>
    simp only [emittedResult, hacc] at h
    exact Option.noConfusion h
  | some a =>
    simp only [emittedResult, hacc] at h
    have hr := Option.some.inj h
    subst hr
    exact ⟨rfl, rfl, rfl, rfl⟩

/-- C5 witness: the default configuration on a one-row dataset. -/
theorem emittedResult_placeholder_metrics_witness :
    ∃ r, emittedResult {} [1] [1] "t" [] = some r ∧
      (r.metrics.precision = 92 / 100 ∧ r.metrics.recallMetric = 90 / 100 ∧
       r.metrics.calibrationError = 5 / 100 ∧
       r.metrics.inferenceLatency = 25) := by
  have hacc : calculate_accuracy [1] [1] = some 1 := by decide
  have hsome : (emittedResult {} [1] [1] "t" []).isSome := by
    simp only [emittedResult, hacc]
    rfl
  obtain ⟨r, hr⟩ := Option.isSome_iff_exists.mp hsome
  exact ⟨r, hr, emittedResult_placeholder_metrics {} [1] [1] "t" [] r hr⟩

/-- C6: once the tracking run is started, `end_run` is executed on every
path: it is the last tracking event both when the body completes and
when any step raises, and the body's outcome is propagated unchanged. -/
theorem train_tracked_always_ends (cfg : Config) (oc : BodyOutcomes) :
    (train_tracked cfg oc).2.getLast? = some MlEvent.endRun ∧
    MlEvent.endRun ∈ (train_tracked cfg oc).2 ∧
    (train_tracked cfg oc).2.head? = some MlEvent.startRun ∧
    (train_tracked cfg oc).1 = (runBody cfg oc).1 := by
  refine ⟨?_, ?_, rfl, rfl⟩
  · show (MlEvent.startRun :: ((runBody cfg oc).2 ++ [MlEvent.endRun])).getLast? =
      some MlEvent.endRun
    rw [← List.cons_append, List.getLast?_concat]
  · show MlEvent.endRun ∈ MlEvent.startRun :: ((runBody cfg oc).2 ++ [MlEvent.endRun])
    simp

/-! ### Helper lemmas for NDCG -/

/-- Every discount weight is positive. -/
theorem w_pos (i : ℕ) : 0 < w i := by
  unfold w
  apply div_pos one_pos
  apply Real.logb_pos (by norm_num)
  have h := Nat.cast_nonneg (α := ℝ) i
  linarith

/-- Discount weights decrease with position. -/
theorem w_antitone {i j : ℕ} (h : i ≤ j) : w j ≤ w i := by
  unfold w
  apply one_div_le_one_div_of_le
  · apply Real.logb_pos (by norm_num)
    have hi := Nat.cast_nonneg (α := ℝ) i
    linarith
  · apply Real.logb_le_logb_of_le (by norm_num)
    · have hi := Nat.cast_nonneg (α := ℝ) i
      linarith
    · have hij : (i : ℝ) ≤ (j : ℝ) := Nat.cast_le.mpr h
      linarith

/-- Discounted-gain sums are nonnegative. -/
theorem gainSum_nonneg (l : List ℚ) (i : ℕ) : 0 ≤ gainSum l i := by
  induction l generalizing i with
  | nil => exact le_refl 0
  | cons r t ih =>
    simp only [gainSum]
    have h1 : (0 : ℝ) ≤ if r ≤ 2 then w i else 0 := by
      split_ifs
      · exact le_of_lt (w_pos i)
      · exact le_refl 0
    exact add_nonneg h1 (ih (i + 1))

/-- Starting the position enumeration one slot later only shrinks the
gain. -/
theorem gainSum_shift (l : List ℚ) (i : ℕ) : gainSum l (i + 1) ≤ gainSum l i := by
  induction l generalizing i with
  | nil => exact le_refl 0
  | cons r t ih =>
    simp only [gainSum]
    apply add_le_add
    · split_ifs
      · exact w_antitone (Nat.le_succ i)
      · exact le_refl 0
    · exact ih (i + 1)

/-- Sums of leading weights are nonnegative. -/
theorem topW_nonneg (c i : ℕ) : 0 ≤ topW c i := by
  induction c generalizing i with
  | zero => exact le_refl 0
  | succ c ih =>
    simp only [topW]
    exact add_nonneg (le_of_lt (w_pos i)) (ih (i + 1))

/-- Shifting a `topW` sum one slot right shrinks it. -/
theorem topW_shift (c i : ℕ) : topW c (i + 1) ≤ topW c i := by
  induction c generalizing i with
  | zero => exact le_refl 0
  | succ c ih =>
    simp only [topW]
    exact add_le_add (w_antitone (Nat.le_succ i)) (ih (i + 1))

/-- `topW` is monotone in the number of summed weights. -/
theorem topW_mono {c c2 : ℕ} (h : c ≤ c2) (i : ℕ) : topW c i ≤ topW c2 i := by
  induction c generalizing c2 i with
  | zero => simpa only [topW] using topW_nonneg c2 i
  | succ c ih =>
    cases c2 with
    | zero => omega
    | succ c2 =>
      simp only [topW]
      exact add_le_add (le_refl (w i)) (ih (by omega) (i + 1))

/-- A `topW` sum of at least one weight is positive. -/
theorem topW_pos {c : ℕ} (h : 1 ≤ c) (i : ℕ) : 0 < topW c i := by
  cases c with
  | zero => omega
  | succ c =>
    simp only [topW]
    have h1 := topW_nonneg c (i + 1)
    have h2 := w_pos i
    linarith

/-- The discounted gain of a list is at most the sum of the first
weights, one per placed entry. -/
theorem gainSum_le_topW (l : List ℚ) (i : ℕ) :
    gainSum l i ≤ topW (placedCount l) i := by
  induction l generalizing i with
  | nil => exact le_refl 0
  | cons r t ih =>
    by_cases h : r ≤ 2
    · have hc : placedCount (r :: t) = placedCount t + 1 := by
        simp [placedCount, List.countP_cons, h]
      rw [hc]
      simp only [gainSum, topW, if_pos h]
      exact add_le_add (le_refl (w i)) (ih (i + 1))
    · have hc : placedCount (r :: t) = placedCount t := by
        simp [placedCount, List.countP_cons, h]
      rw [hc]
      simp only [gainSum, if_neg h, zero_add]
      exact le_trans (ih (i + 1)) (topW_shift _ i)

/-- A list with no placed entry contributes no gain. -/
theorem gainSum_eq_zero : ∀ (l : List ℚ) (i : ℕ), (∀ r ∈ l, ¬ r ≤ 2) →
    gainSum l i = 0
  | [], _, _ => rfl
  | r :: t, i, h => by
    simp only [gainSum]
    rw [if_neg (h r (List.mem_cons_self r t)),
        gainSum_eq_zero t (i + 1) (fun x hx => h x (List.mem_cons_of_mem r hx)),
        add_zero]

/-- On an ascending list the placed entries occupy the leading
positions, so its gain is exactly the sum of the first weights. -/
theorem gainSum_sorted : ∀ (l : List ℚ), l.Sorted (· ≤ ·) → ∀ i,
    gainSum l i = topW (placedCount l) i
  | [], _, _ => rfl
  | r :: t, hs, i => by
    have hst : t.Sorted (· ≤ ·) := (List.pairwise_cons.mp hs).2
    have hhd : ∀ x ∈ t, r ≤ x := (List.pairwise_cons.mp hs).1
    by_cases h : r ≤ 2
    · have hc : placedCount (r :: t) = placedCount t + 1 := by
        simp [placedCount, List.countP_cons, h]
      rw [hc]
      simp only [gainSum, topW, if_pos h]
      rw [gainSum_sorted t hst (i + 1)]
    · have ht0 : ∀ x ∈ t, ¬ x ≤ 2 := fun x hx hle => h (le_trans (hhd x hx) hle)
      have hc : placedCount (r :: t) = 0 := by
        have hct : t.countP (fun x => decide (x ≤ 2)) = 0 :=
          List.countP_eq_zero.mpr (by intro a ha; simpa using ht0 a ha)
        simp [placedCount, List.countP_cons, h, hct]
      rw [hc]
      simp only [gainSum, topW, if_neg h, zero_add]
      exact gainSum_eq_zero t (i + 1) ht0

/-- On an ascending list, the number of placed entries among the first
`k` is `min k` (number of placed entries overall). -/
theorem placedCount_take_sorted : ∀ (l : List ℚ), l.Sorted (· ≤ ·) → ∀ k,
    placedCount (l.take k) = min k (placedCount l)
  | [], _, k => by simp [placedCount]
  | r :: t, _, 0 => by simp [placedCount]
  | r :: t, hs, (k + 1) => by
    have hst : t.Sorted (· ≤ ·) := (List.pairwise_cons.mp hs).2
    have hhd : ∀ x ∈ t, r ≤ x := (List.pairwise_cons.mp hs).1
    rw [List.take_succ_cons]
    by_cases h : r ≤ 2
    · have h1 : placedCount (r :: t.take k) = placedCount (t.take k) + 1 := by
        simp [placedCount, List.countP_cons, h]
      have h2 : placedCount (r :: t) = placedCount t + 1 := by
        simp [placedCount, List.countP_cons, h]
      rw [h1, h2, placedCount_take_sorted t hst k]
      omega
    · have ht0 : ∀ x ∈ t, ¬ x ≤ 2 := fun x hx hle => h (le_trans (hhd x hx) hle)
      have hct : placedCount t = 0 :=
        List.countP_eq_zero.mpr (by intro a ha; simpa using ht0 a ha)
      have hctk : placedCount (t.take k) = 0 := by
        have hsub : placedCount (t.take k) ≤ placedCount t :=
          List.Sublist.countP_le _ (List.take_sublist k t)
        omega
      have h1 : placedCount (r :: t.take k) = 0 := by
        simp [placedCount, List.countP_cons, h]
        simpa [placedCount] using hctk
      have h2 : placedCount (r :: t) = 0 := by
        simp [placedCount, List.countP_cons, h]
        simpa [placedCount] using hct
      rw [h1, h2]
      omega

/-- Placed-entry counts are invariant under permutation. -/
theorem placedCount_perm {l1 l2 : List ℚ} (h : l1.Perm l2) :
    placedCount l1 = placedCount l2 :=
  List.Perm.countP_eq _ h

/-- The top-`k` predicted entries contain at most `min k (placed
entries of y_true)` placed entries: the selected indices are distinct,
so placed entries cannot be counted twice. -/
theorem placedCount_rankedTrue_le (y_true y_pred : List ℚ) (k : ℕ)
    (hlen : y_true.length ≤ y_pred.length) :
    placedCount (rankedTrue y_true y_pred k) ≤ min k (placedCount y_true) := by
  apply le_min
  · calc placedCount (rankedTrue y_true y_pred k)
        ≤ (rankedTrue y_true y_pred k).length := List.countP_le_length _
      _ ≤ k := by
          unfold rankedTrue
          rw [List.length_map, List.length_take]
          exact min_le_left _ _
  · unfold rankedTrue placedCount
    rw [List.countP_map]
    have h1 : ((sortedByScoreDesc y_pred y_true).take k).countP
          ((fun r => decide (r ≤ 2)) ∘ Prod.snd)
        ≤ (sortedByScoreDesc y_pred y_true).countP
          ((fun r => decide (r ≤ 2)) ∘ Prod.snd) :=
      List.Sublist.countP_le _ (List.take_sublist _ _)
    have h2 : (sortedByScoreDesc y_pred y_true).countP
          ((fun r => decide (r ≤ 2)) ∘ Prod.snd)
        = (y_pred.zip y_true).countP ((fun r => decide (r ≤ 2)) ∘ Prod.snd) :=
      List.Perm.countP_eq _ (List.perm_insertionSort _ _)
    have h3 : (y_pred.zip y_true).countP ((fun r => decide (r ≤ 2)) ∘ Prod.snd)
        = y_true.countP (fun r => decide (r ≤ 2)) := by
      rw [← List.countP_map, List.map_snd_zip _ _ hlen]
    rw [h2, h3] at h1
    exact h1

/-- The ideal gain in closed form: the sum of the first
`min k (placed entries)` weights. -/
theorem idcg_eq_topW (y_true : List ℚ) (k : ℕ) :
    idcg y_true k = topW (min k (placedCount y_true)) 0 := by
  unfold idcg idealRanked
  have hsorted : (y_true.insertionSort (· ≤ ·)).Sorted (· ≤ ·) :=
    List.sorted_insertionSort _ _
  have hst : ((y_true.insertionSort (· ≤ ·)).take k).Sorted (· ≤ ·) :=
    List.Pairwise.sublist (List.take_sublist _ _) hsorted
  rw [gainSum_sorted _ hst 0, placedCount_take_sorted _ hsorted k,
      placedCount_perm (List.perm_insertionSort _ y_true)]

/-- The realized gain never exceeds the ideal gain. -/
theorem dcg_le_idcg (y_true y_pred : List ℚ) (k : ℕ)
    (hlen : y_true.length ≤ y_pred.length) :
    dcg y_true y_pred k ≤ idcg y_true k := by
  unfold dcg
  calc gainSum (rankedTrue y_true y_pred k) 0
      ≤ topW (placedCount (rankedTrue y_true y_pred k)) 0 := gainSum_le_topW _ 0
    _ ≤ topW (min k (placedCount y_true)) 0 :=
        topW_mono (placedCount_rankedTrue_le y_true y_pred k hlen) 0
    _ = idcg y_true k := (idcg_eq_topW y_true k).symm

/-- The ideal gain is nonnegative. -/
theorem idcg_nonneg (y_true : List ℚ) (k : ℕ) : 0 ≤ idcg y_true k :=
  gainSum_nonneg _ 0

/-- The realized gain is nonnegative. -/
theorem dcg_nonneg (y_true y_pred : List ℚ) (k : ℕ) :
    0 ≤ dcg y_true y_pred k :=
  gainSum_nonneg _ 0

/-! ### Claim theorems: NDCG -/

/-- C9: for equal-length vectors and `k ≥ 1` the NDCG value lies in
`[0, 1]`, because the realized discounted gain never exceeds the ideal
discounted gain. -/
theorem calculate_ndcg_bounds (y_true y_pred : List ℚ) (k : ℕ)
    (hlen : y_true.length = y_pred.length) (hk : 1 ≤ k) :
    0 ≤ calculate_ndcg y_true y_pred k ∧ calculate_ndcg y_true y_pred k ≤ 1 ∧
    dcg y_true y_pred k ≤ idcg y_true k := by
  have hdi : dcg y_true y_pred k ≤ idcg y_true k :=
    dcg_le_idcg _ _ _ (le_of_eq hlen)
  unfold calculate_ndcg
  split_ifs with h
  · exact ⟨div_nonneg (dcg_nonneg _ _ _) (le_of_lt h), (div_le_one h).mpr hdi, hdi⟩
  · exact ⟨le_refl 0, zero_le_one, hdi⟩

/-- C9 witness: concrete one-element vectors at `k = 1`. -/
theorem calculate_ndcg_bounds_witness :
    ([1] : List ℚ).length = ([2] : List ℚ).length ∧ 1 ≤ 1 ∧
    (0 ≤ calculate_ndcg [1] [2] 1 ∧ calculate_ndcg [1] [2] 1 ≤ 1 ∧
     dcg [1] [2] 1 ≤ idcg [1] 1) :=
  ⟨rfl, le_refl 1, calculate_ndcg_bounds [1] [2] 1 rfl (le_refl 1)⟩

/-- C1 (amended with `k ≥ 1`): when the top-`k` predicted entries are
exactly the `k` best true ranks in order and `1 ≤ k ≤` the number of
placed entries, NDCG@k is exactly `1.0`. -/
theorem calculate_ndcg_perfect (y_true y_pred : List ℚ) (k : ℕ)
    (hlen : y_true.length = y_pred.length) (hk : 1 ≤ k)
    (hkp : k ≤ placedCount y_true)
    (hperf : rankedTrue y_true y_pred k = idealRanked y_true k) :
    calculate_ndcg y_true y_pred k = 1 := by
  have hpos : 0 < idcg y_true k := by
    rw [idcg_eq_topW]
    exact topW_pos (by omega) 0
  have hdcg : dcg y_true y_pred k = idcg y_true k := by
    unfold dcg idcg
    rw [hperf]
  unfold calculate_ndcg
  rw [if_pos hpos, hdcg, div_self (ne_of_gt hpos)]

/-- C1 counterexample: at `k = 0` the perfect-ordering and
`k ≤ placed entries` hypotheses of the claim hold, yet `calculate_ndcg`
returns `0`, not `1.0` (the `idcg > 0` guard fails and the `else`
branch returns `0`). -/
theorem calculate_ndcg_perfect_fails_at_zero :
    rankedTrue [1] [1] 0 = idealRanked [1] 0 ∧
    0 ≤ placedCount [1] ∧
    calculate_ndcg [1] [1] 0 = 0 ∧
    calculate_ndcg [1] [1] 0 ≠ 1 := by
  have h0 : idcg [1] 0 = 0 := rfl
  have hv : calculate_ndcg [1] [1] 0 = 0 := by
    unfold calculate_ndcg
    rw [h0, if_neg (lt_irrefl (0 : ℝ))]
  exact ⟨by decide, by decide, hv, by rw [hv]; norm_num⟩

/-- C1 witness: a three-entry race predicted in perfect order with two
placed entries, at `k = 2`. -/
theorem calculate_ndcg_perfect_witness :
    ([1, 2, 3] : List ℚ).length = ([3, 2, 1] : List ℚ).length ∧ 1 ≤ 2 ∧
    2 ≤ placedCount [1, 2, 3] ∧
    rankedTrue [1, 2, 3] [3, 2, 1] 2 = idealRanked [1, 2, 3] 2 ∧
    calculate_ndcg [1, 2, 3] [3, 2, 1] 2 = 1 :=
  ⟨rfl, by norm_num, by decide, by decide,
   calculate_ndcg_perfect [1, 2, 3] [3, 2, 1] 2 rfl (by norm_num) (by decide)
     (by decide)⟩

/-- C2 (amended: "returns 0 exactly when the ideal gain is 0" becomes
"returns 0 exactly when the realized gain is 0 or the ideal gain is
0"): with no placed entry in the true-rank vector the result is `0` for
every prediction vector and every `k`, and in general the result is `0`
iff the realized or the ideal discounted gain vanishes. -/
theorem calculate_ndcg_zero_iff :
    (∀ (y_true y_pred : List ℚ) (k : ℕ), (∀ r ∈ y_true, ¬ r ≤ 2) →
      calculate_ndcg y_true y_pred k = 0)
    ∧ ∀ (y_true y_pred : List ℚ) (k : ℕ),
      calculate_ndcg y_true y_pred k = 0 ↔
        (dcg y_true y_pred k = 0 ∨ idcg y_true k = 0) := by
  have hzero : ∀ (y_true y_pred : List ℚ) (k : ℕ),
      (dcg y_true y_pred k = 0 ∨ idcg y_true k = 0) →
      calculate_ndcg y_true y_pred k = 0 := by
    intro y_true y_pred k h
    unfold calculate_ndcg
    split_ifs with hpos
    · rcases h with h | h
      · rw [h, zero_div]
      · exact absurd h (ne_of_gt hpos)
    · rfl
  constructor
  · intro y_true y_pred k h
    apply hzero
    right
    unfold idcg idealRanked
    apply gainSum_eq_zero
    intro r hr
    apply h
    have hr2 : r ∈ y_true.insertionSort (· ≤ ·) := List.mem_of_mem_take hr
    exact (List.perm_insertionSort _ y_true).mem_iff.mp hr2
  · intro y_true y_pred k
    constructor
    · intro h
      by_cases hpos : 0 < idcg y_true k
      · left
        unfold calculate_ndcg at h
        rw [if_pos hpos] at h
        rcases div_eq_zero_iff.mp h with h2 | h2
        · exact h2
        · exact absurd h2 (ne_of_gt hpos)
      · right
        exact le_antisymm (not_lt.mp hpos) (idcg_nonneg y_true k)
    · exact hzero y_true y_pred k

/-- C2 counterexample: at `y_true = [1, 3]`, `y_pred = [0, 1]`, `k = 1`
the function returns `0` although the ideal gain is `1`, not `0` — so
"returns 0 exactly when the ideal gain is 0" fails in the only-if
direction. -/
theorem calculate_ndcg_zero_with_positive_idcg :
    calculate_ndcg [1, 3] [0, 1] 1 = 0 ∧ idcg [1, 3] 1 ≠ 0 := by
  have hideal : idealRanked [1, 3] 1 = [1] := by decide
  have hw0 : w 0 = 1 := by
    unfold w
    have h2 : ((0 : ℕ) : ℝ) + 2 = 2 := by norm_num
    rw [h2, Real.logb_self_eq_one (by norm_num)]
    norm_num
  have hidcg : idcg [1, 3] 1 = 1 := by
    unfold idcg
    rw [hideal]
    simp only [gainSum]
    rw [if_pos (by norm_num : (1 : ℚ) ≤ 2), hw0]
    norm_num
  have hranked : rankedTrue [1, 3] [0, 1] 1 = [3] := by decide
  have hdcg : dcg [1, 3] [0, 1] 1 = 0 := by
    unfold dcg
    rw [hranked]
    simp only [gainSum]
    rw [if_neg (by norm_num : ¬ (3 : ℚ) ≤ 2)]
    norm_num
  constructor
  · unfold calculate_ndcg
    rw [hidcg, hdcg, if_pos (by norm_num : (0 : ℝ) < 1)]
    norm_num
  · rw [hidcg]
    norm_num

/-- C2 witness: a true-rank vector with no placed entry yields NDCG 0. -/
theorem calculate_ndcg_zero_iff_witness :
    (∀ r ∈ ([3, 4] : List ℚ), ¬ r ≤ 2) ∧ calculate_ndcg [3, 4] [1, 2] 2 = 0 :=
  ⟨by decide, calculate_ndcg_zero_iff.1 [3, 4] [1, 2] 2 (by decide)⟩

end TrainCatboost
